import Mathlib

/-!
Verification of the contrast-curve computation pipeline driven by the
`covariance_contrast` notebook.  The notebook calls five analysis helpers
(`covariance_matrix`, `aperture_matrix`, `noise_map`, `radial_profile`,
`compute_contrast`) whose bodies are not part of this repository; those are
modelled from the specification.  Everything the notebook itself computes
(reference subtraction, aperture placement, the off-axis normalization
convolution, and the caller-side 5-sigma scaling) is embedded from the
notebook's own cells.

Images are exact rational grids; the only real-number step is the square
root taken by the noise map.
-/

namespace Pancake

/-- Error taxonomy of the contrast pipeline, from the specification. -/
inductive AnalysisError where
  | insufficientSamples
  | zeroNormalization
  | dimensionMismatch
deriving DecidableEq

/-- A pixel position in an H-by-W frame: (row, column). -/
abbrev Pix (H W : ℕ) := Fin H × Fin W

/-- A 2D grid of exact rational detector values (dimensions in the type, so
`DimensionMismatch` is ruled out by construction). -/
abbrev Image (H W : ℕ) := Pix H W → ℚ

/-- Zero-padded lookup: the image value at integer coordinates, or 0 when the
coordinates fall outside the frame.  This is the `mode='constant'` boundary
condition of the notebook's convolution. -/
def getZ {H W : ℕ} (img : Image H W) (i j : ℤ) : ℚ :=
  if h : 0 ≤ i ∧ i < (H : ℤ) ∧ 0 ≤ j ∧ j < (W : ℤ) then
    img (⟨i.toNat, by omega⟩, ⟨j.toNat, by omega⟩)
  else 0

/-- The index at which the notebook centers the aperture along an axis of
length `d`: cell 19 draws the circle at `(image_dim - 1) // 2`, integer floor
division. -/
def aperture_center (d : ℕ) : ℕ := (d - 1) / 2

/-- Zero-padded 2D convolution of `img` with the kernel `ker`, the kernel
being centered at `aperture_center` on each axis; this is the semantics of
the notebook's `scipy.ndimage.convolve(img, ker, mode='constant')` call in
cell 25. -/
def convolve {H W : ℕ} (img ker : Image H W) (p : Pix H W) : ℚ :=
  ∑ q : Pix H W, ker q *
    getZ img (((p.1 : ℕ) : ℤ) + (aperture_center H : ℤ) - ((q.1 : ℕ) : ℤ))
             (((p.2 : ℕ) : ℤ) + (aperture_center W : ℤ) - ((q.2 : ℕ) : ℤ))

/-- The normalization constant of the notebook's cell 25: convolve the
off-axis image with the aperture (zero-padded) and take the maximum over the
whole frame. -/
def normalization {H W : ℕ} [NeZero H] [NeZero W] (offaxis ap : Image H W) : ℚ :=
  Finset.sup' Finset.univ Finset.univ_nonempty (fun p => convolve offaxis ap p)

/-- Per-pixel mean across the N realizations of a stack. -/
def pixel_mean {N H W : ℕ} (stack : Fin N → Image H W) (p : Pix H W) : ℚ :=
  (∑ n, stack n p) / (N : ℚ)

/-- Modelled from the spec: the sample covariance matrix of a stack
(`pancake.analysis.covariance_matrix` is not in this repository).  Entry
(p, q) is the covariance across realizations between pixels p and q, with
per-pixel mean subtraction and the unbiased N-1 normalization the spec
prescribes. -/
def sample_covariance {N H W : ℕ} (stack : Fin N → Image H W) :
    Matrix (Pix H W) (Pix H W) ℚ :=
  Matrix.of fun p q =>
    (∑ n, (stack n p - pixel_mean stack p) * (stack n q - pixel_mean stack q)) /
      ((N : ℚ) - 1)

/-- Modelled from the spec: `computeCovariance` fails with
`InsufficientSamples` when the stack holds fewer than 2 images, and otherwise
returns the sample covariance matrix. -/
def covariance_matrix {N H W : ℕ} (stack : Fin N → Image H W) :
    Except AnalysisError (Matrix (Pix H W) (Pix H W) ℚ) :=
  if N < 2 then Except.error AnalysisError.insufficientSamples
  else Except.ok (sample_covariance stack)

/-- Modelled from the spec: the aperture operator
(`pancake.analysis.aperture_matrix` is not in this repository).  Row p is the
flattened aperture re-centered at p (out-of-frame taps zero), so that row p
dotted with a flattened image is the zero-padded convolution of the image
with the aperture at p.  The aperture's own center is the notebook's
`aperture_center` placement index. -/
def aperture_matrix {H W : ℕ} (ap : Image H W) : Matrix (Pix H W) (Pix H W) ℚ :=
  Matrix.of fun p q =>
    getZ ap ((aperture_center H : ℤ) + ((p.1 : ℕ) : ℤ) - ((q.1 : ℕ) : ℤ))
            ((aperture_center W : ℤ) + ((p.2 : ℕ) : ℤ) - ((q.2 : ℕ) : ℤ))

/-- Modelled from the spec: `pancake.analysis.noise_map` is not in this
repository.  The variance of the aperture-summed signal at p is the diagonal
entry of `A * cov * A.transpose`, and the noise map is its square root. -/
noncomputable def noise_map {H W : ℕ} (cov apOp : Matrix (Pix H W) (Pix H W) ℚ)
    (p : Pix H W) : ℝ :=
  Real.sqrt (((apOp * cov * apOp.transpose) p p : ℚ) : ℝ)

/-- The default radial-profile center along an axis of length `d`: the exact
geometric center `(d - 1) / 2` (a half-integer for even `d`), per the spec. -/
def default_center_coord (d : ℕ) : ℚ := ((d : ℚ) - 1) / 2

/-- Default center of an H-by-W frame, per axis. -/
def default_center (H W : ℕ) : ℚ × ℚ := (default_center_coord H, default_center_coord W)

/-- Squared Euclidean distance from a (possibly fractional) center to a pixel. -/
def dist2 {H W : ℕ} (c : ℚ × ℚ) (p : Pix H W) : ℚ :=
  (((p.1 : ℕ) : ℚ) - c.1) ^ 2 + (((p.2 : ℕ) : ℚ) - c.2) ^ 2

/-- The radial bin of a squared distance `d`: `round (Real.sqrt d)` with ties
rounded up, computed exactly on rationals.  For `d ≥ 0` one has
`round (sqrt d) = ((Nat.sqrt of the floor of 4 * d) + 1) / 2`. -/
def bin_of (d : ℚ) : ℕ := (Nat.sqrt (Int.toNat ⌊4 * d⌋) + 1) / 2

/-- The radial bin a pixel falls in, for a given center. -/
def bin_index {H W : ℕ} (c : ℚ × ℚ) (p : Pix H W) : ℕ := bin_of (dist2 c p)

/-- Number of pixels contributing to radial bin `b`. -/
def bin_count (H W : ℕ) (c : ℚ × ℚ) (b : ℕ) : ℕ :=
  (Finset.univ.filter (fun p : Pix H W => bin_index c p = b)).card

/-- The largest radial bin present in the frame (0 on an empty frame). -/
def max_bin (H W : ℕ) (c : ℚ × ℚ) : ℕ :=
  Finset.univ.sup (fun p : Pix H W => bin_index c p)

/-- Modelled from the spec: `pancake.analysis.radial_profile` is not in this
repository.  Azimuthally average the data per integer radial bin around the
given center (default: the exact geometric center).  A bin with no
contributing pixels yields `none`, the embedding's not-a-number sentinel. -/
def profile_entry {H W : ℕ} {α : Type} [DivisionRing α] (data : Pix H W → α)
    (c : ℚ × ℚ) (b : ℕ) : Option α :=
  if bin_count H W c b = 0 then none
  else some ((∑ p ∈ Finset.univ.filter (fun p : Pix H W => bin_index c p = b),
               data p) / ((bin_count H W c b : ℕ) : α))

/-- Modelled from the spec (continued): the radial profile proper.  The bins
are the integers 0 .. max radius present; the profile is the mean of the data
per bin, `none` for an empty bin. -/
def radial_profile {H W : ℕ} {α : Type} [DivisionRing α] (data : Pix H W → α)
    (cOpt : Option (ℚ × ℚ)) : List ℕ × List (Option α) :=
  (List.range (max_bin H W (cOpt.getD (default_center H W)) + 1),
   (List.range (max_bin H W (cOpt.getD (default_center H W)) + 1)).map
     (profile_entry data (cOpt.getD (default_center H W))))

/-- Modelled from the spec: `pancake.analysis.compute_contrast` is not in this
repository.  It orchestrates covariance, noise map, radial profile and
normalization.  Per the notebook's call sites (cells 27, 29-30 and 32 all
multiply the returned profile by 5 to plot a 5-sigma curve, and the manual
pipeline of cell 27 computes `5 * profile / normalization` for the same
plot), the returned contrast is `profile / normalization` with no sigma
factor applied inside. -/
noncomputable def compute_contrast {N H W : ℕ} [NeZero H] [NeZero W]
    (stack : Fin N → Image H W) (offaxis ap : Image H W) :
    Except AnalysisError (List ℕ × List (Option ℝ)) :=
  match covariance_matrix stack with
  | Except.error e => Except.error e
  | Except.ok cov =>
    if normalization offaxis ap ≤ 0 then Except.error AnalysisError.zeroNormalization
    else
      let r := radial_profile (noise_map cov (aperture_matrix ap)) none
      Except.ok (r.1, r.2.map (Option.map (fun v => v / ((normalization offaxis ap : ℚ) : ℝ))))

/-- An image that may hold NaN pixels: `none` stands for NaN. -/
abbrev NanImage (H W : ℕ) := Pix H W → Option ℚ

/-- NaN-propagating subtraction of two possibly-NaN values. -/
def nanSub (a b : Option ℚ) : Option ℚ :=
  match a, b with
  | some x, some y => some (x - y)
  | _, _ => none

/-- Number of non-NaN pixels of a possibly-NaN image. -/
def nan_count {H W : ℕ} (img : NanImage H W) : ℕ :=
  (Finset.univ.filter (fun p : Pix H W => (img p).isSome)).card

/-- The NaN-ignoring mean of an image, as `numpy.nanmean` computes it: the
mean of the non-NaN pixels, NaN (`none`) when every pixel is NaN. -/
def nanmean {H W : ℕ} (img : NanImage H W) : Option ℚ :=
  if nan_count img = 0 then none
  else some ((∑ p, ((img p).getD 0)) / (nan_count img : ℚ))

/-- One image of the notebook's subtraction stack (cell 13):
`targ - np.nanmean(targ) - aligned_ref`, elementwise with NaN propagation. -/
def subtraction_image {H W : ℕ} (targ alignedRef : NanImage H W) : NanImage H W :=
  fun p => nanSub (nanSub (targ p) (nanmean targ)) (alignedRef p)

/-- The notebook's subtraction stack (cell 13): for each (target, reference)
pair, align the reference to the target with the external registration
routine `reg` (kept abstract) and form the subtraction image. -/
def subtraction_stack {H W : ℕ} (reg : NanImage H W → NanImage H W → NanImage H W)
    (targets refs : List (NanImage H W)) : List (NanImage H W) :=
  (targets.zip refs).map (fun tr => subtraction_image tr.1 (reg tr.2 tr.1))

/-! Helper lemmas. -/

theorem nat_sqrt_eq {m k : ℕ} (h1 : k * k ≤ m) (h2 : m < (k + 1) * (k + 1)) :
    Nat.sqrt m = k :=
  le_antisymm (Nat.lt_succ_iff.mp (Nat.sqrt_lt.mpr h2)) (Nat.le_sqrt.mpr h1)

theorem covariance_matrix_ok {N H W : ℕ} (stack : Fin N → Image H W) (hN : 2 ≤ N) :
    covariance_matrix stack = Except.ok (sample_covariance stack) := by
  unfold covariance_matrix
  rw [if_neg (by omega)]

theorem compute_contrast_of_few {N H W : ℕ} [NeZero H] [NeZero W]
    (stack : Fin N → Image H W) (offaxis ap : Image H W) (hN : N < 2) :
    compute_contrast stack offaxis ap = Except.error AnalysisError.insufficientSamples := by
  unfold compute_contrast covariance_matrix
  rw [if_pos hN]

theorem compute_contrast_of_cov {N H W : ℕ} [NeZero H] [NeZero W]
    (stack : Fin N → Image H W) (offaxis ap : Image H W) (hN : 2 ≤ N) :
    compute_contrast stack offaxis ap =
      (if normalization offaxis ap ≤ 0 then Except.error AnalysisError.zeroNormalization
       else
        let r := radial_profile (noise_map (sample_covariance stack) (aperture_matrix ap)) none
        Except.ok (r.1, r.2.map (Option.map (fun v => v / ((normalization offaxis ap : ℚ) : ℝ))))) := by
  unfold compute_contrast
  rw [covariance_matrix_ok stack hN]

/-! Claim theorems. -/

/-- C2: for every off-axis image and aperture of identical dimensions, the
normalization constant used by `compute_contrast` equals the maximum, over
all pixel positions in the frame, of the zero-padded convolution of the
off-axis image with the aperture kernel. -/
theorem normalization_is_max_of_convolution {H W : ℕ} [NeZero H] [NeZero W]
    (offaxis ap : Image H W) :
    (∀ p : Pix H W, convolve offaxis ap p ≤ normalization offaxis ap) ∧
    (∃ p : Pix H W, normalization offaxis ap = convolve offaxis ap p) := by
  constructor
  · intro p
    exact Finset.le_sup' (fun q => convolve offaxis ap q) (Finset.mem_univ p)
  · obtain ⟨p, -, hp⟩ :=
      Finset.exists_mem_eq_sup' (Finset.univ_nonempty) (fun q : Pix H W => convolve offaxis ap q)
    exact ⟨p, hp⟩

/-- C2 witness: instantiation on a concrete 1-by-1 frame. -/
theorem normalization_is_max_of_convolution_witness :
    (∀ p : Pix 1 1, convolve (fun _ => (1 : ℚ)) (fun _ => 1) p ≤
        normalization (H := 1) (W := 1) (fun _ => 1) (fun _ => 1)) ∧
    (∃ p : Pix 1 1, normalization (H := 1) (W := 1) (fun _ => 1) (fun _ => 1) =
        convolve (fun _ => (1 : ℚ)) (fun _ => 1) p) :=
  normalization_is_max_of_convolution
    (H := 1) (W := 1) (fun _ => 1) (fun _ => 1)

/-- C3: `covariance_matrix` (and hence `compute_contrast`) fails with
`InsufficientSamples` exactly when the stack holds fewer than 2 images, and
for N at least 2 the returned covariance is the sample covariance with
per-pixel mean subtraction, normalized by N - 1. -/
theorem covariance_insufficient_samples {N H W : ℕ} [NeZero H] [NeZero W]
    (stack : Fin N → Image H W) (offaxis ap : Image H W) :
    ((covariance_matrix stack = Except.error AnalysisError.insufficientSamples) ↔ N < 2) ∧
    ((compute_contrast stack offaxis ap = Except.error AnalysisError.insufficientSamples) ↔ N < 2) ∧
    (2 ≤ N → covariance_matrix stack = Except.ok (sample_covariance stack) ∧
      ∀ p q : Pix H W, sample_covariance stack p q =
        (∑ n, (stack n p - pixel_mean stack p) * (stack n q - pixel_mean stack q)) /
          ((N : ℚ) - 1)) := by
  refine ⟨?_, ?_, fun hN => ⟨covariance_matrix_ok stack hN, fun p q => rfl⟩⟩
  · constructor
    · intro h
      by_contra hN
      rw [covariance_matrix_ok stack (by omega)] at h
      exact Except.noConfusion h
    · intro hN
      unfold covariance_matrix
      rw [if_pos hN]
  · constructor
    · intro h
      by_contra hN
      rw [compute_contrast_of_cov stack offaxis ap (by omega)] at h
      by_cases h0 : normalization offaxis ap ≤ 0
      · rw [if_pos h0] at h
        exact AnalysisError.noConfusion (Except.error.inj h)
      · rw [if_neg h0] at h
        exact Except.noConfusion h
    · intro hN
      exact compute_contrast_of_few stack offaxis ap hN

/-- C3 witness: a 1-image stack fails, a 2-image stack returns the unbiased
sample covariance. -/
theorem covariance_insufficient_samples_witness :
    (covariance_matrix (fun (_ : Fin 1) (_ : Pix 1 1) => (0 : ℚ)) =
      Except.error AnalysisError.insufficientSamples) ∧
    (covariance_matrix (fun (_ : Fin 2) (_ : Pix 1 1) => (0 : ℚ)) =
      Except.ok (sample_covariance (fun (_ : Fin 2) (_ : Pix 1 1) => (0 : ℚ)))) := by
  constructor
  · exact ((covariance_insufficient_samples (N := 1) (H := 1) (W := 1)
      (fun _ _ => 0) (fun _ => 0) (fun _ => 0)).1).mpr (by norm_num)
  · exact (((covariance_insufficient_samples (N := 2) (H := 1) (W := 1)
      (fun _ _ => 0) (fun _ => 0) (fun _ => 0)).2.2) (by norm_num)).1

/-- C4: for every covariance matrix and aperture operator and every pixel p,
the noise map value at p is the square root of the quadratic form of row p
of the operator against the covariance matrix, hence non-negative. -/
theorem noise_map_quadratic_form {H W : ℕ}
    (cov apOp : Matrix (Pix H W) (Pix H W) ℚ) (p : Pix H W) :
    noise_map cov apOp p =
      Real.sqrt (((∑ q, ∑ r, apOp p q * cov q r * apOp p r : ℚ) : ℝ)) ∧
    0 ≤ noise_map cov apOp p := by
  have h : (apOp * cov * apOp.transpose) p p =
      ∑ q, ∑ r, apOp p q * cov q r * apOp p r := by
    simp only [Matrix.mul_apply, Matrix.transpose_apply, Finset.sum_mul]
    rw [Finset.sum_comm]
  constructor
  · rw [noise_map, h]
  · exact Real.sqrt_nonneg _

/-- C8: with a valid stack, `compute_contrast` fails with `ZeroNormalization`
exactly when the normalization constant is at most 0; in particular the
all-zero aperture gives normalization 0 and this failure, with no partial
result. -/
theorem zero_normalization_error {N H W : ℕ} [NeZero H] [NeZero W]
    (stack : Fin N → Image H W) (offaxis ap : Image H W) (hN : 2 ≤ N) :
    ((compute_contrast stack offaxis ap = Except.error AnalysisError.zeroNormalization) ↔
      normalization offaxis ap ≤ 0) ∧
    normalization offaxis (fun _ => 0) = 0 ∧
    compute_contrast stack offaxis (fun _ => 0) =
      Except.error AnalysisError.zeroNormalization := by
  have hz : normalization offaxis (fun _ => (0 : ℚ)) = 0 := by
    apply Finset.sup'_eq_of_forall
    intro p _
    simp [convolve]
  refine ⟨?_, hz, ?_⟩
  · rw [compute_contrast_of_cov stack offaxis ap hN]
    by_cases h0 : normalization offaxis ap ≤ 0
    · rw [if_pos h0]
      simp [h0]
    · rw [if_neg h0]
      simp [h0]
  · rw [compute_contrast_of_cov stack offaxis _ hN, hz]
    simp

/-- C8 witness: a concrete 2-image stack on a 1-by-1 frame. -/
theorem zero_normalization_error_witness :
    ((compute_contrast (fun (_ : Fin 2) (_ : Pix 1 1) => (0 : ℚ)) (fun _ => 1) (fun _ => 1) =
        Except.error AnalysisError.zeroNormalization) ↔
      normalization (H := 1) (W := 1) (fun _ => 1) (fun _ => 1) ≤ 0) ∧
    normalization (H := 1) (W := 1) (fun _ => 1) (fun _ => 0) = 0 ∧
    compute_contrast (fun (_ : Fin 2) (_ : Pix 1 1) => (0 : ℚ)) (fun _ => 1) (fun _ => 0) =
      Except.error AnalysisError.zeroNormalization :=
  zero_normalization_error (fun _ _ => 0) (fun _ => 1) (fun _ => 1) (by norm_num)

/-- C9 counterexample: on an even axis length (2) the radial-profile default
center coordinate is 1/2 while the notebook's aperture placement index
`(dim - 1) // 2` is 0, so the two center conventions disagree on even
dimensions. -/
theorem center_convention_counterexample :
    aperture_center 2 = 0 ∧ default_center_coord 2 = 1 / 2 ∧
    default_center_coord 2 ≠ ((aperture_center 2 : ℕ) : ℚ) := by
  refine ⟨rfl, ?_, ?_⟩
  · norm_num [default_center_coord]
  · norm_num [default_center_coord, aperture_center]

/-- C9 amended: when no center is supplied, `radial_profile` uses the exact
geometric center `(dim - 1) / 2` per axis; this coincides with the notebook's
aperture placement index `(dim - 1) // 2` for odd axis lengths, but exceeds
it by 1/2 for even axis lengths. -/
theorem default_center_convention :
    (∀ (H W : ℕ) (data : Pix H W → ℝ),
       radial_profile data none = radial_profile data (some (default_center H W))) ∧
    (∀ d : ℕ, Odd d → default_center_coord d = ((aperture_center d : ℕ) : ℚ)) ∧
    (∀ d : ℕ, 1 ≤ d → Even d →
       default_center_coord d = ((aperture_center d : ℕ) : ℚ) + 1 / 2) := by
  refine ⟨fun H W data => rfl, ?_, ?_⟩
  · intro d hd
    obtain ⟨m, rfl⟩ := hd
    have h1 : aperture_center (2 * m + 1) = m := by unfold aperture_center; omega
    rw [h1]
    unfold default_center_coord
    push_cast
    ring
  · intro d hd1 hd2
    obtain ⟨m, rfl⟩ := hd2
    have hm : 1 ≤ m := by omega
    have h1 : aperture_center (m + m) = m - 1 := by unfold aperture_center; omega
    rw [h1]
    unfold default_center_coord
    rw [Nat.cast_sub hm]
    push_cast
    ring

/-- C9 witness: concrete odd (3) and even (2) axis lengths. -/
theorem default_center_convention_witness :
    Odd 3 ∧ default_center_coord 3 = ((aperture_center 3 : ℕ) : ℚ) ∧
    Even 2 ∧ default_center_coord 2 = ((aperture_center 2 : ℕ) : ℚ) + 1 / 2 :=
  ⟨⟨1, by norm_num⟩, default_center_convention.2.1 3 ⟨1, by norm_num⟩,
   ⟨1, by norm_num⟩, default_center_convention.2.2 2 (by norm_num) ⟨1, by norm_num⟩⟩

/-- C5: when all images of a stack of at least 2 are identical, the
covariance step succeeds and composing it with the noise map yields zero at
every pixel, for every aperture operator. -/
theorem identical_stack_zero_noise {N H W : ℕ} (stack : Fin N → Image H W)
    (hN : 2 ≤ N) (hid : ∀ n m : Fin N, stack n = stack m) :
    ∃ cov, covariance_matrix stack = Except.ok cov ∧
      ∀ (apOp : Matrix (Pix H W) (Pix H W) ℚ) (p : Pix H W), noise_map cov apOp p = 0 := by
  refine ⟨sample_covariance stack, covariance_matrix_ok stack hN, ?_⟩
  have n0 : Fin N := ⟨0, by omega⟩
  have hNQ : (N : ℚ) ≠ 0 := Nat.cast_ne_zero.mpr (by omega)
  have hmean : ∀ r, pixel_mean stack r = stack n0 r := by
    intro r
    unfold pixel_mean
    rw [Finset.sum_congr rfl (fun n _ => congrFun (hid n n0) r), Finset.sum_const,
      Finset.card_univ, Fintype.card_fin, nsmul_eq_mul]
    field_simp
  have hc : sample_covariance stack = 0 := by
    ext p q
    show (∑ n, (stack n p - pixel_mean stack p) * (stack n q - pixel_mean stack q)) /
      ((N : ℚ) - 1) = 0
    rw [Finset.sum_eq_zero (fun n _ => by
      rw [hmean p, hmean q, congrFun (hid n n0) p, congrFun (hid n n0) q]
      ring), zero_div]
  intro apOp p
  rw [hc]
  unfold noise_map
  simp

/-- C5 witness: a concrete stack of two identical 1-by-1 images. -/
theorem identical_stack_zero_noise_witness :
    ∃ cov, covariance_matrix (fun (_ : Fin 2) (_ : Pix 1 1) => (3 : ℚ)) = Except.ok cov ∧
      ∀ (apOp : Matrix (Pix 1 1) (Pix 1 1) ℚ) (p : Pix 1 1), noise_map cov apOp p = 0 :=
  identical_stack_zero_noise (fun _ _ => 3) (by norm_num) (fun _ _ => rfl)

theorem radial_profile_snd_length {H W : ℕ} {α : Type} [DivisionRing α]
    (data : Pix H W → α) (cOpt : Option (ℚ × ℚ)) :
    (radial_profile data cOpt).2.length =
      max_bin H W (cOpt.getD (default_center H W)) + 1 := by
  simp [radial_profile]

/-- C6: a radial bin with zero contributing pixels gets the not-a-number
sentinel (`none`) in its output slot — `radial_profile` neither raises (it is
total) nor emits zero there. -/
theorem radial_profile_empty_bin {H W : ℕ} {α : Type} [inst : DivisionRing α]
    (data : Pix H W → α) (cOpt : Option (ℚ × ℚ)) (b : ℕ)
    (hb : b < (radial_profile data cOpt).2.length)
    (h0 : bin_count H W (cOpt.getD (default_center H W)) b = 0) :
    (radial_profile data cOpt).2.get ⟨b, hb⟩ = none ∧
    (radial_profile data cOpt).2.get ⟨b, hb⟩ ≠ some 0 := by
  have h : (radial_profile data cOpt).2.get ⟨b, hb⟩ = none := by
    simp [radial_profile, List.get_eq_getElem, List.getElem_map, List.getElem_range,
      profile_entry, h0]
  exact ⟨h, by rw [h]; exact fun hc => Option.noConfusion hc⟩

/-- C6 witness: on a 2-by-2 frame with the default (half-integer) center,
every pixel falls in bin 1, so bin 0 is empty and yields the sentinel. -/
theorem radial_profile_empty_bin_witness :
    ∃ hb : 0 < (radial_profile (fun _ : Pix 2 2 => (1 : ℝ)) none).2.length,
      (radial_profile (fun _ : Pix 2 2 => (1 : ℝ)) none).2.get ⟨0, hb⟩ = none ∧
      (radial_profile (fun _ : Pix 2 2 => (1 : ℝ)) none).2.get ⟨0, hb⟩ ≠ some 0 := by
  have hsq : Nat.sqrt 2 = 1 := nat_sqrt_eq (by norm_num) (by norm_num)
  have hbin : ∀ p : Pix 2 2, bin_index (default_center 2 2) p = 1 := by
    intro p
    have hd : dist2 (default_center 2 2) p = 1 / 2 := by
      fin_cases p <;> norm_num [dist2, default_center, default_center_coord]
    rw [bin_index, hd, bin_of, show ⌊(4 : ℚ) * (1 / 2)⌋ = 2 by norm_num,
      show Int.toNat 2 = 2 from rfl, hsq]
  have h0 : bin_count 2 2 (default_center 2 2) 0 = 0 := by
    rw [bin_count, Finset.card_eq_zero, Finset.filter_eq_empty_iff]
    intro p _
    rw [hbin p]
    norm_num
  have hb : 0 < (radial_profile (fun _ : Pix 2 2 => (1 : ℝ)) none).2.length := by
    rw [radial_profile_snd_length]
    exact Nat.succ_pos _
  exact ⟨hb, radial_profile_empty_bin _ none 0 hb h0⟩

/-- C10: each image of the notebook's subtraction stack is the target minus
the scalar NaN-ignoring mean of the target minus the aligned reference; when
the frames are NaN-free and the aligned reference is mean-centered, the stack
image is itself exactly zero-mean. -/
theorem subtraction_stack_mean_centered {H W : ℕ} (targ ref : NanImage H W) :
    (∀ p, subtraction_image targ ref p = nanSub (nanSub (targ p) (nanmean targ)) (ref p)) ∧
    ((∀ p, (targ p).isSome) → (∀ p, (ref p).isSome) → nanmean ref = some 0 →
      nanmean (subtraction_image targ ref) = some 0) ∧
    (∀ (reg : NanImage H W → NanImage H W → NanImage H W)
       (targets refs : List (NanImage H W)) (img : NanImage H W),
       img ∈ subtraction_stack reg targets refs →
       ∃ t r, (t, r) ∈ targets.zip refs ∧ img = subtraction_image t (reg r t)) := by
  refine ⟨fun p => rfl, ?_, ?_⟩
  · intro hT hR hR0
    have hcT : nan_count targ = Fintype.card (Pix H W) := by
      rw [nan_count, Finset.filter_true_of_mem (fun p _ => hT p), Finset.card_univ]
    have hcR : nan_count ref = Fintype.card (Pix H W) := by
      rw [nan_count, Finset.filter_true_of_mem (fun p _ => hR p), Finset.card_univ]
    rw [nanmean, hcR] at hR0
    by_cases hP : Fintype.card (Pix H W) = 0
    · rw [if_pos hP] at hR0
      exact absurd hR0 (fun hc => Option.noConfusion hc)
    have hcast : ((Fintype.card (Pix H W) : ℚ)) ≠ 0 := Nat.cast_ne_zero.mpr hP
    rw [if_neg hP] at hR0
    have hRsum : (∑ p, (ref p).getD 0) = 0 :=
      (div_eq_zero_iff.mp (Option.some.inj hR0)).resolve_right hcast
    have hμ : nanmean targ =
        some ((∑ q, (targ q).getD 0) / (Fintype.card (Pix H W) : ℚ)) := by
      rw [nanmean, hcT, if_neg hP]
    have hentry : ∀ p, subtraction_image targ ref p =
        some ((targ p).getD 0 - (∑ q, (targ q).getD 0) / (Fintype.card (Pix H W) : ℚ)
               - (ref p).getD 0) := by
      intro p
      obtain ⟨tv, htv⟩ := Option.isSome_iff_exists.mp (hT p)
      obtain ⟨rv, hrv⟩ := Option.isSome_iff_exists.mp (hR p)
      show nanSub (nanSub (targ p) (nanmean targ)) (ref p) = _
      rw [htv, hrv, hμ]
      simp [nanSub]
    have hgetD : ∀ p, (subtraction_image targ ref p).getD 0 =
        (targ p).getD 0 - (∑ q, (targ q).getD 0) / (Fintype.card (Pix H W) : ℚ)
          - (ref p).getD 0 := fun p => by rw [hentry p]; rfl
    have hcS : nan_count (subtraction_image targ ref) = Fintype.card (Pix H W) := by
      rw [nan_count, Finset.filter_true_of_mem (fun p _ => by rw [hentry p]; rfl),
        Finset.card_univ]
    rw [nanmean, hcS, if_neg hP]
    have hS : (∑ p, (subtraction_image targ ref p).getD 0) = 0 := by
      rw [Finset.sum_congr rfl (fun p _ => hgetD p), Finset.sum_sub_distrib,
        Finset.sum_sub_distrib, Finset.sum_const, Finset.card_univ, hRsum, nsmul_eq_mul,
        ← mul_div_assoc, mul_div_cancel_left₀ _ hcast, sub_self, zero_sub, neg_zero]
    rw [hS, zero_div]
  · intro reg targets refs img him
    obtain ⟨⟨t, r⟩, htr, rfl⟩ := List.mem_map.mp him
    exact ⟨t, r, htr, rfl⟩

/-- C1 counterexample: on a 1-by-1 frame, a 2-image stack with pixel values
0 and 2, a unit off-axis image and a unit aperture give normalization 1 and
radial profile [sqrt 2]; `compute_contrast` returns [sqrt 2], not the
sigma-scaled 5 * sqrt 2 / 1 the claim prescribes, so the sigma multiplier is
not applied inside. -/
theorem sigma_inside_compute_contrast_counterexample :
    normalization (H := 1) (W := 1) (fun _ => 1) (fun _ => 1) = 1 ∧
    (radial_profile (noise_map
        (sample_covariance (fun (n : Fin 2) (_ : Pix 1 1) => if n = 0 then (0 : ℚ) else 2))
        (aperture_matrix (fun _ => 1))) none).2 = [some (Real.sqrt 2)] ∧
    compute_contrast (fun (n : Fin 2) (_ : Pix 1 1) => if n = 0 then (0 : ℚ) else 2)
      (fun _ => 1) (fun _ => 1) = Except.ok ([0], [some (Real.sqrt 2)]) ∧
    (5 : ℝ) * Real.sqrt 2 / ((1 : ℚ) : ℝ) ≠ Real.sqrt 2 := by
  have hbi : ∀ p : Pix 1 1, bin_index (default_center 1 1) p = 0 := fun p => by
    simp [bin_index, dist2, default_center, default_center_coord, bin_of, Fin.val_eq_zero]
  have hrp : ∀ f : Pix 1 1 → ℝ, radial_profile f none = ([0], [some (f (0, 0))]) := by
    intro f
    have hmb : max_bin 1 1 (default_center 1 1) = 0 := by
      rw [max_bin]
      exact Nat.le_antisymm (Finset.sup_le (fun p _ => (hbi p).le)) (Nat.zero_le _)
    have hbc : bin_count 1 1 (default_center 1 1) 0 = 1 := by
      rw [bin_count, Finset.filter_true_of_mem (fun p _ => hbi p), Finset.card_univ]
      simp
    rw [radial_profile]
    simp only [Option.getD_none]
    rw [hmb, show List.range (0 + 1) = [0] from rfl]
    simp only [List.map_cons, List.map_nil]
    refine Prod.ext rfl ?_
    simp only [profile_entry, hbc]
    norm_num
    rw [Finset.filter_true_of_mem (fun p _ => hbi p),
      show (Finset.univ : Finset (Pix 1 1)) = {((0 : Fin 1), (0 : Fin 1))} from rfl,
      Finset.sum_singleton]
    rfl
  have hcov : ∀ p q : Pix 1 1,
      sample_covariance (fun (n : Fin 2) (_ : Pix 1 1) => if n = 0 then (0 : ℚ) else 2) p q
        = 2 := by
    intro p q
    have hpm : ∀ r : Pix 1 1,
        pixel_mean (fun (n : Fin 2) (_ : Pix 1 1) => if n = 0 then (0 : ℚ) else 2) r = 1 := by
      intro r
      rw [pixel_mean, Fin.sum_univ_two]
      norm_num
    simp only [sample_covariance, Matrix.of_apply]
    rw [Fin.sum_univ_two, hpm p, hpm q]
    norm_num
  have hA : ∀ p q : Pix 1 1, aperture_matrix (fun _ => (1 : ℚ)) p q = 1 := fun p q => by
    simp [aperture_matrix, getZ, aperture_center, Fin.val_eq_zero]
  have hnm : ∀ p : Pix 1 1, noise_map
      (sample_covariance (fun (n : Fin 2) (_ : Pix 1 1) => if n = 0 then (0 : ℚ) else 2))
      (aperture_matrix (fun _ => (1 : ℚ))) p = Real.sqrt 2 := by
    intro p
    rw [noise_map]
    norm_num [Matrix.mul_apply, Matrix.transpose_apply, hcov, hA]
  have hnorm : normalization (H := 1) (W := 1) (fun _ => 1) (fun _ => 1) = 1 := by
    apply Finset.sup'_eq_of_forall
    intro p _
    simp [convolve, getZ, aperture_center, Fin.val_eq_zero]
  have hs2 : (0 : ℝ) < Real.sqrt 2 := Real.sqrt_pos.mpr (by norm_num)
  refine ⟨hnorm, ?_, ?_, ?_⟩
  · rw [hrp, hnm]
  · rw [compute_contrast_of_cov _ _ _ (le_refl 2), hnorm, if_neg (by norm_num)]
    rw [hrp]
    norm_num [hnm]
  · rw [Rat.cast_one, div_one]
    intro h
    nlinarith

/-- C1 amended: `compute_contrast` returns (bins, contrast) with contrast
equal to the radial profile of the noise map divided by the normalization
constant; the sigma multiplier (5 in the notebook) is applied by the caller,
not inside `compute_contrast`. -/
theorem compute_contrast_divides_profile {N H W : ℕ} [NeZero H] [NeZero W]
    (stack : Fin N → Image H W) (offaxis ap : Image H W)
    (hN : 2 ≤ N) (hpos : 0 < normalization offaxis ap) :
    compute_contrast stack offaxis ap =
      Except.ok
        ((radial_profile (noise_map (sample_covariance stack) (aperture_matrix ap)) none).1,
         (radial_profile (noise_map (sample_covariance stack) (aperture_matrix ap)) none).2.map
           (Option.map (fun v => v / ((normalization offaxis ap : ℚ) : ℝ)))) := by
  rw [compute_contrast_of_cov stack offaxis ap hN, if_neg (not_le.mpr hpos)]

/-- C1 amended witness: a concrete 2-image stack on a 1-by-1 frame with unit
off-axis image and unit aperture. -/
theorem compute_contrast_divides_profile_witness :
    2 ≤ 2 ∧ 0 < normalization (H := 1) (W := 1) (fun _ => 1) (fun _ => 1) ∧
    compute_contrast (fun (_ : Fin 2) (_ : Pix 1 1) => (0 : ℚ)) (fun _ => 1) (fun _ => 1) =
      Except.ok
        ((radial_profile (noise_map (sample_covariance (fun (_ : Fin 2) (_ : Pix 1 1) => (0 : ℚ)))
            (aperture_matrix (fun _ => 1))) none).1,
         (radial_profile (noise_map (sample_covariance (fun (_ : Fin 2) (_ : Pix 1 1) => (0 : ℚ)))
            (aperture_matrix (fun _ => 1))) none).2.map
           (Option.map (fun v => v /
             ((normalization (H := 1) (W := 1) (fun _ => 1) (fun _ => 1) : ℚ) : ℝ)))) := by
  have hpos : 0 < normalization (H := 1) (W := 1) (fun _ => 1) (fun _ => 1) := by
    rw [show normalization (H := 1) (W := 1) (fun _ => 1) (fun _ => 1) = 1 by
      apply Finset.sup'_eq_of_forall
      intro p _
      simp [convolve, getZ, aperture_center, Fin.val_eq_zero]]
    norm_num
  exact ⟨le_refl 2, hpos,
    compute_contrast_divides_profile (fun _ _ => 0) (fun _ => 1) (fun _ => 1) (le_refl 2) hpos⟩

/-- C10 witness: a concrete NaN-free 1-by-1 target and a mean-centered
reference. -/
theorem subtraction_stack_mean_centered_witness :
    nanmean (fun _ : Pix 1 1 => some (0 : ℚ)) = some 0 ∧
    nanmean (subtraction_image (fun _ : Pix 1 1 => some (2 : ℚ)) (fun _ => some 0)) =
      some 0 := by
  have h0 : nanmean (fun _ : Pix 1 1 => some (0 : ℚ)) = some 0 := by
    rw [nanmean]
    rw [show nan_count (fun _ : Pix 1 1 => some (0 : ℚ)) = 1 by simp [nan_count]]
    norm_num
  exact ⟨h0, (subtraction_stack_mean_centered (fun _ : Pix 1 1 => some (2 : ℚ))
    (fun _ => some 0)).2.1 (fun _ => rfl) (fun _ => rfl) h0⟩

theorem getZ_smul {H W : ℕ} (k : ℚ) (img : Image H W) (i j : ℤ) :
    getZ (fun p => k * img p) i j = k * getZ img i j := by
  by_cases h : 0 ≤ i ∧ i < (H : ℤ) ∧ 0 ≤ j ∧ j < (W : ℤ)
  · rw [getZ, getZ, dif_pos h, dif_pos h]
  · rw [getZ, getZ, dif_neg h, dif_neg h, mul_zero]

theorem convolve_smul_left {H W : ℕ} (k : ℚ) (img ker : Image H W) (p : Pix H W) :
    convolve (fun q => k * img q) ker p = k * convolve img ker p := by
  rw [convolve, convolve, Finset.mul_sum]
  refine Finset.sum_congr rfl fun q _ => ?_
  rw [getZ_smul]
  ring

theorem normalization_smul {H W : ℕ} [NeZero H] [NeZero W] (k : ℚ) (hk : 0 ≤ k)
    (offaxis ap : Image H W) :
    normalization (fun q => k * offaxis q) ap = k * normalization offaxis ap := by
  apply le_antisymm
  · apply Finset.sup'_le
    intro p _
    rw [convolve_smul_left]
    exact mul_le_mul_of_nonneg_left
      (Finset.le_sup' (fun q : Pix H W => convolve offaxis ap q) (Finset.mem_univ p)) hk
  · obtain ⟨p, -, hp⟩ := Finset.exists_mem_eq_sup' Finset.univ_nonempty
      (fun q : Pix H W => convolve offaxis ap q)
    rw [normalization, hp, ← convolve_smul_left]
    exact Finset.le_sup' (fun q : Pix H W => convolve (fun r => k * offaxis r) ap q)
      (Finset.mem_univ p)

theorem pixel_mean_smul {N H W : ℕ} (k : ℚ) (stack : Fin N → Image H W) (r : Pix H W) :
    pixel_mean (fun n q => k * stack n q) r = k * pixel_mean stack r := by
  rw [pixel_mean, pixel_mean, ← Finset.mul_sum, mul_div_assoc]

theorem sample_covariance_smul {N H W : ℕ} (k : ℚ) (stack : Fin N → Image H W) :
    sample_covariance (fun n q => k * stack n q) = (k ^ 2) • sample_covariance stack := by
  ext p q
  simp only [sample_covariance, Matrix.of_apply, Matrix.smul_apply, smul_eq_mul]
  have h1 : ∀ n : Fin N,
      (k * stack n p - pixel_mean (fun m r => k * stack m r) p) *
        (k * stack n q - pixel_mean (fun m r => k * stack m r) q) =
      k ^ 2 * ((stack n p - pixel_mean stack p) * (stack n q - pixel_mean stack q)) := by
    intro n
    rw [pixel_mean_smul k stack p, pixel_mean_smul k stack q]
    ring
  rw [Finset.sum_congr rfl (fun n _ => h1 n), ← Finset.mul_sum, mul_div_assoc]

theorem noise_map_smul {H W : ℕ} (k : ℚ) (hk : 0 ≤ k)
    (cov apOp : Matrix (Pix H W) (Pix H W) ℚ) (p : Pix H W) :
    noise_map ((k ^ 2) • cov) apOp p = ((k : ℚ) : ℝ) * noise_map cov apOp p := by
  rw [noise_map, noise_map, Matrix.mul_smul, Matrix.smul_mul, Matrix.smul_apply, smul_eq_mul]
  rw [Rat.cast_mul, show ((k ^ 2 : ℚ) : ℝ) = ((k : ℚ) : ℝ) ^ 2 by push_cast; ring]
  rw [Real.sqrt_mul (sq_nonneg _), Real.sqrt_sq (by exact_mod_cast hk)]

theorem radial_profile_smul {H W : ℕ} (c : ℝ) (f : Pix H W → ℝ) (cOpt : Option (ℚ × ℚ)) :
    radial_profile (fun p => c * f p) cOpt =
      ((radial_profile f cOpt).1,
       (radial_profile f cOpt).2.map (Option.map (fun v => c * v))) := by
  rw [radial_profile, radial_profile]
  refine Prod.ext rfl ?_
  show List.map _ _ = List.map _ (List.map _ _)
  rw [List.map_map]
  congr 1
  funext b
  by_cases h : bin_count H W (cOpt.getD (default_center H W)) b = 0
  · rw [Function.comp_apply, profile_entry, profile_entry, if_pos h, if_pos h]
    rfl
  · rw [Function.comp_apply, profile_entry, profile_entry, if_neg h, if_neg h]
    show some _ = Option.map _ (some _)
    rw [Option.map_some']
    congr 1
    rw [← Finset.mul_sum, mul_div_assoc]

/-- C7: scaling every stack image and the off-axis image by the same
positive factor k leaves the contrast curve of `compute_contrast` unchanged
(and preserves its error behavior). -/
theorem compute_contrast_scale_invariant {N H W : ℕ} [NeZero H] [NeZero W]
    (stack : Fin N → Image H W) (offaxis ap : Image H W) (k : ℚ) (hk : 0 < k) :
    compute_contrast (fun n q => k * stack n q) (fun q => k * offaxis q) ap =
      compute_contrast stack offaxis ap := by
  by_cases hN : N < 2
  · rw [compute_contrast_of_few _ _ _ hN, compute_contrast_of_few _ _ _ hN]
  push_neg at hN
  rw [compute_contrast_of_cov _ _ _ hN, compute_contrast_of_cov _ _ _ hN]
  rw [normalization_smul k hk.le offaxis ap]
  by_cases h0 : normalization offaxis ap ≤ 0
  · rw [if_pos h0, if_pos (by nlinarith)]
  · have h0' : 0 < normalization offaxis ap := not_le.mp h0
    have hkn : ¬ k * normalization offaxis ap ≤ 0 := not_le.mpr (mul_pos hk h0')
    rw [if_neg hkn, if_neg h0]
    rw [sample_covariance_smul]
    have hfun : (noise_map ((k ^ 2) • sample_covariance stack) (aperture_matrix ap)) =
        fun p => ((k : ℚ) : ℝ) * noise_map (sample_covariance stack) (aperture_matrix ap) p := by
      funext p
      rw [noise_map_smul k hk.le]
    rw [hfun, radial_profile_smul]
    show Except.ok _ = Except.ok _
    congr 1
    refine Prod.ext rfl ?_
    show List.map _ (List.map _ _) = List.map _ _
    rw [List.map_map]
    congr 1
    funext o
    cases o with
    | none => rfl
    | some v =>
      show some (((k : ℚ) : ℝ) * v / ((k * normalization offaxis ap : ℚ) : ℝ)) =
        some (v / ((normalization offaxis ap : ℚ) : ℝ))
      congr 1
      rw [Rat.cast_mul]
      rw [mul_div_mul_left _ _ (by exact_mod_cast hk.ne' : ((k : ℚ) : ℝ) ≠ 0)]

/-- C7 witness: concrete instantiation with k = 2 on a 1-by-1 frame. -/
theorem compute_contrast_scale_invariant_witness :
    (0 : ℚ) < 2 ∧
    compute_contrast (fun (_ : Fin 2) (_ : Pix 1 1) => 2 * (1 : ℚ)) (fun _ => 2 * 1)
        (fun _ => 1) =
      compute_contrast (fun (_ : Fin 2) (_ : Pix 1 1) => (1 : ℚ)) (fun _ => 1) (fun _ => 1) :=
  ⟨by norm_num, compute_contrast_scale_invariant (fun _ _ => 1) (fun _ => 1) (fun _ => 1) 2
    (by norm_num)⟩

end Pancake
